import Mathlib

/-!
# Verification of the `AlgExpr` expression engine

Shallow embedding of `src/algebra/base.ts`: the `AlgExpr` abstract syntax,
the renderer, the tokenizer and recursive-descent parser, the evaluator,
and the randomized equivalence checker.

Modelling conventions:
* strings are modelled as `List Char`;
* JavaScript numbers flowing through the exact integer arithmetic of the
  evaluator are modelled as `ℤ` (all values involved stay far below 2^53,
  where JavaScript arithmetic on integers is exact);
* the floating-point folding of the equivalence checker is modelled as
  `Option ℚ`, with `none` playing the role of `NaN` (the only source of
  `NaN` in the source is the explicit `NaN` for a zero denominator or an
  unsubstituted variable, and `NaN` propagates through every operation);
* the tokenizer and the parser carry an explicit fuel argument so that all
  definitions are structurally recursive; the wrappers supply fuel that is
  large enough, and lemmas below show the fuel never runs out on the
  wrappers' budgets;
* the `throw` of `getValue` ("Expression is not a number") is modelled by
  the `Option`-valued variant `getValueChecked`; the total `getValue`
  returns a junk value `0` on the impossible branch, and the agreement
  theorem for the checked evaluator shows the branch is never taken.
-/

/-- The `AlgExpr` tagged union from the source, values as `ℤ`. -/
inductive AlgExpr where
  | Int (value : ℤ)
  | Var (name : List Char)
  | Add (arg1 arg2 : AlgExpr)
  | Sub (arg1 arg2 : AlgExpr)
  | Mul (arg1 arg2 : AlgExpr)
  | Div (arg1 arg2 : AlgExpr)
  | Neg (arg : AlgExpr)
deriving DecidableEq

/-- The tokenizer's character class `/\d/`. -/
def isDigitChar (c : Char) : Bool := decide (48 ≤ c.toNat ∧ c.toNat ≤ 57)

/-- The tokenizer's character class `/[a-zA-Z]/`. -/
def isLetterChar (c : Char) : Bool :=
  decide ((65 ≤ c.toNat ∧ c.toNat ≤ 90) ∨ (97 ≤ c.toNat ∧ c.toNat ≤ 122))

/-- The tokenizer's whitespace class `/\s/`, by code point:
space, tab, newline, vertical tab, form feed, carriage return
(the exotic Unicode members of `/\s/` are irrelevant to every claim;
the renderer only ever emits `' '`). -/
def isSpaceChar (c : Char) : Bool :=
  decide (c.toNat = 32 ∨ c.toNat = 9 ∨ c.toNat = 10 ∨ c.toNat = 11 ∨ c.toNat = 12 ∨ c.toNat = 13)

/-- The four operator characters `+ - * /`, by code point. -/
def isOpChar (c : Char) : Bool :=
  decide (c.toNat = 43 ∨ c.toNat = 45 ∨ c.toNat = 42 ∨ c.toNat = 47)

/-- Decimal digits of `n`, most significant first; `[]` for `n = 0`.
Fuel-structural version of the digit loop inside JavaScript's
`Number.prototype.toString`. -/
def natToDigitsAux : ℕ → ℕ → List Char
  | 0, _ => []
  | f + 1, n => if n = 0 then [] else natToDigitsAux f (n / 10) ++ [Char.ofNat (48 + n % 10)]

/-- Decimal rendering of a natural number (`(0).toString() = "0"`). -/
def renderNat (n : ℕ) : List Char := if n = 0 then ['0'] else natToDigitsAux (n + 1) n

/-- Decimal rendering of an integer, `'-'`-prefixed when negative. -/
def renderInt (v : ℤ) : List Char :=
  if v < 0 then '-' :: renderNat v.natAbs else renderNat v.toNat

/-- `renderExpression` from the source: fully parenthesized infix. -/
def renderExpression : AlgExpr → List Char
  | .Int value => renderInt value
  | .Var name => name
  | .Add arg1 arg2 =>
      '(' :: (renderExpression arg1 ++ ' ' :: '+' :: ' ' :: renderExpression arg2 ++ [')'])
  | .Sub arg1 arg2 =>
      '(' :: (renderExpression arg1 ++ ' ' :: '-' :: ' ' :: renderExpression arg2 ++ [')'])
  | .Mul arg1 arg2 =>
      '(' :: (renderExpression arg1 ++ ' ' :: '*' :: ' ' :: renderExpression arg2 ++ [')'])
  | .Div arg1 arg2 =>
      '(' :: (renderExpression arg1 ++ ' ' :: '/' :: ' ' :: renderExpression arg2 ++ [')'])
  | .Neg arg => '(' :: '-' :: (renderExpression arg ++ [')'])

/-- The `Token` union from the source.  The `op` payload is one of
`'+' '-' '*' '/'`; the tokenizer constructs no other operator tokens. -/
inductive Token where
  | number (value : ℕ)
  | var (name : List Char)
  | op (c : Char)
  | lparen
  | rparen
deriving DecidableEq

/-- `parseInt` on a run of decimal digits. -/
def natFromDigits (ds : List Char) : ℕ :=
  ds.foldl (fun a c => 10 * a + (c.toNat - 48)) 0

/-- `tokenize` from the source, with fuel.  Every iteration of the source's
`while` loop consumes at least one character, so fuel `length + 1` (supplied
by the wrapper `tokenize`) never runs out. -/
def tokenizeF : ℕ → List Char → Except String (List Token)
  | _, [] => .ok []
  | 0, _ :: _ => .error "out of fuel"
  | f + 1, c :: cs =>
    if isSpaceChar c then tokenizeF f cs
    else if isDigitChar c then
      (tokenizeF f (List.dropWhile isDigitChar (c :: cs))).map
        (fun ts => .number (natFromDigits (List.takeWhile isDigitChar (c :: cs))) :: ts)
    else if isLetterChar c then
      (tokenizeF f (List.dropWhile isLetterChar (c :: cs))).map
        (fun ts => .var (List.takeWhile isLetterChar (c :: cs)) :: ts)
    else if isOpChar c then
      (tokenizeF f cs).map (fun ts => .op c :: ts)
    else if c = '(' then
      (tokenizeF f cs).map (fun ts => .lparen :: ts)
    else if c = ')' then
      (tokenizeF f cs).map (fun ts => .rparen :: ts)
    else .error "Unexpected character"

/-- `tokenize` from the source. -/
def tokenize (cs : List Char) : Except String (List Token) :=
  tokenizeF (cs.length + 1) cs

/-- Result of one parsing routine: the parsed expression and the remaining
tokens (the source's class keeps a cursor into the token array instead). -/
abbrev ParseRes := Except String (AlgExpr × List Token)

mutual

/-- `Parser.parsePrimary` from the source, with fuel. -/
def parsePrimaryF : ℕ → List Token → ParseRes
  | 0, _ => .error "out of fuel"
  | _ + 1, [] => .error "Unexpected end of input"
  | f + 1, t :: rest =>
    match t with
    | .op c =>
        if c = '-' then
          match parsePrimaryF f rest with
          | .ok (e, rest') => .ok (.Neg e, rest')
          | .error msg => .error msg
        else .error "Unexpected token"
    | .number n => .ok (.Int (Int.ofNat n), rest)
    | .var s => .ok (.Var s, rest)
    | .lparen =>
        match parseAddSubF f rest with
        | .ok (e, rest') =>
            match rest' with
            | .rparen :: rest'' => .ok (e, rest'')
            | _ => .error "Expected closing parenthesis"
        | .error msg => .error msg
    | .rparen => .error "Unexpected token"

/-- `Parser.parseMulDiv` from the source (primary, then the `while` loop). -/
def parseMulDivF : ℕ → List Token → ParseRes
  | 0, _ => .error "out of fuel"
  | f + 1, ts =>
    match parsePrimaryF f ts with
    | .ok (left, rest) => parseMulDivLoopF f left rest
    | .error msg => .error msg

/-- The `while` loop of `Parser.parseMulDiv`. -/
def parseMulDivLoopF : ℕ → AlgExpr → List Token → ParseRes
  | 0, _, _ => .error "out of fuel"
  | _ + 1, left, [] => .ok (left, [])
  | f + 1, left, t :: rest =>
    match t with
    | .op c =>
        if c = '*' then
          match parsePrimaryF f rest with
          | .ok (right, rest') => parseMulDivLoopF f (.Mul left right) rest'
          | .error msg => .error msg
        else if c = '/' then
          match parsePrimaryF f rest with
          | .ok (right, rest') => parseMulDivLoopF f (.Div left right) rest'
          | .error msg => .error msg
        else .ok (left, .op c :: rest)
    | .number n => .ok (left, .number n :: rest)
    | .var s => .ok (left, .var s :: rest)
    | .lparen => .ok (left, .lparen :: rest)
    | .rparen => .ok (left, .rparen :: rest)

/-- `Parser.parseAddSub` from the source (mul-div, then the `while` loop). -/
def parseAddSubF : ℕ → List Token → ParseRes
  | 0, _ => .error "out of fuel"
  | f + 1, ts =>
    match parseMulDivF f ts with
    | .ok (left, rest) => parseAddSubLoopF f left rest
    | .error msg => .error msg

/-- The `while` loop of `Parser.parseAddSub`. -/
def parseAddSubLoopF : ℕ → AlgExpr → List Token → ParseRes
  | 0, _, _ => .error "out of fuel"
  | _ + 1, left, [] => .ok (left, [])
  | f + 1, left, t :: rest =>
    match t with
    | .op c =>
        if c = '+' then
          match parseMulDivF f rest with
          | .ok (right, rest') => parseAddSubLoopF f (.Add left right) rest'
          | .error msg => .error msg
        else if c = '-' then
          match parseMulDivF f rest with
          | .ok (right, rest') => parseAddSubLoopF f (.Sub left right) rest'
          | .error msg => .error msg
        else .ok (left, .op c :: rest)
    | .number n => .ok (left, .number n :: rest)
    | .var s => .ok (left, .var s :: rest)
    | .lparen => .ok (left, .lparen :: rest)
    | .rparen => .ok (left, .rparen :: rest)

end

/-- `Parser.parse` from the source: a full `AddSub`, then the check that no
tokens remain.  The fuel `5 * length + 5` is shown sufficient below. -/
def parseTokens (ts : List Token) : Except String AlgExpr :=
  match parseAddSubF (5 * ts.length + 5) ts with
  | .ok (e, []) => .ok e
  | .ok (_, _ :: _) => .error "Unexpected tokens after expression"
  | .error msg => .error msg

/-- `parseExpression` from the source. -/
def parseExpression (cs : List Char) : Except String AlgExpr :=
  (tokenize cs).bind parseTokens

/-- `isNumber` from the source. -/
def isNumber : AlgExpr → Bool
  | .Int _ => true
  | .Neg (.Int _) => true
  | _ => false

/-- `getValue` from the source.  The source throws
`Error("Expression is not a number")` on the final branch; the total model
returns `0` there, and `getValueChecked` models the throw. -/
def getValue : AlgExpr → ℤ
  | .Neg (.Int v) => -v
  | .Int v => v
  | _ => 0

/-- `getValue` with the throw modelled as `none`. -/
def getValueChecked : AlgExpr → Option ℤ
  | .Neg (.Int v) => some (-v)
  | .Int v => some v
  | _ => none

/-- `standardizeNumber` from the source. -/
def standardizeNumber (n : ℤ) : AlgExpr :=
  if n < 0 then .Neg (.Int (-n)) else .Int n

/-- `evaluateExpression` from the source.  The source binds
`left`/`right` once with `let`; the model repeats the recursive calls,
which is observationally identical for a pure function. -/
def evaluateExpression : AlgExpr → AlgExpr
  | .Add arg1 arg2 =>
      if isNumber (evaluateExpression arg1) && isNumber (evaluateExpression arg2) then
        standardizeNumber (getValue (evaluateExpression arg1) + getValue (evaluateExpression arg2))
      else .Add (evaluateExpression arg1) (evaluateExpression arg2)
  | .Sub arg1 arg2 =>
      if isNumber (evaluateExpression arg1) && isNumber (evaluateExpression arg2) then
        standardizeNumber (getValue (evaluateExpression arg1) - getValue (evaluateExpression arg2))
      else .Sub (evaluateExpression arg1) (evaluateExpression arg2)
  | .Mul arg1 arg2 =>
      if isNumber (evaluateExpression arg1) && isNumber (evaluateExpression arg2) then
        standardizeNumber (getValue (evaluateExpression arg1) * getValue (evaluateExpression arg2))
      else .Mul (evaluateExpression arg1) (evaluateExpression arg2)
  | .Div arg1 arg2 =>
      if isNumber (evaluateExpression arg1) && isNumber (evaluateExpression arg2)
          && getValue (evaluateExpression arg2) != 0
          && getValue (evaluateExpression arg1) % getValue (evaluateExpression arg2) == 0 then
        standardizeNumber (getValue (evaluateExpression arg1) / getValue (evaluateExpression arg2))
      else .Div (evaluateExpression arg1) (evaluateExpression arg2)
  | .Neg arg =>
      match evaluateExpression arg with
      | .Neg x => x
      | argEval => .Neg argEval
  | e => e

/-- `evaluateExpression` with `getValue`'s throw propagated as `none`:
a `none` result would mean the `EvaluationError` branch was reached. -/
def evaluateExpressionChecked : AlgExpr → Option AlgExpr
  | .Add arg1 arg2 => do
      let left ← evaluateExpressionChecked arg1
      let right ← evaluateExpressionChecked arg2
      if isNumber left && isNumber right then do
        let vl ← getValueChecked left
        let vr ← getValueChecked right
        pure (standardizeNumber (vl + vr))
      else pure (.Add left right)
  | .Sub arg1 arg2 => do
      let left ← evaluateExpressionChecked arg1
      let right ← evaluateExpressionChecked arg2
      if isNumber left && isNumber right then do
        let vl ← getValueChecked left
        let vr ← getValueChecked right
        pure (standardizeNumber (vl - vr))
      else pure (.Sub left right)
  | .Mul arg1 arg2 => do
      let left ← evaluateExpressionChecked arg1
      let right ← evaluateExpressionChecked arg2
      if isNumber left && isNumber right then do
        let vl ← getValueChecked left
        let vr ← getValueChecked right
        pure (standardizeNumber (vl * vr))
      else pure (.Mul left right)
  | .Div arg1 arg2 => do
      let left ← evaluateExpressionChecked arg1
      let right ← evaluateExpressionChecked arg2
      if isNumber left && isNumber right then do
        let vl ← getValueChecked left
        let vr ← getValueChecked right
        if vr != 0 && vl % vr == 0 then pure (standardizeNumber (vl / vr))
        else pure (.Div left right)
      else pure (.Div left right)
  | .Neg arg => do
      let argEval ← evaluateExpressionChecked arg
      match argEval with
      | .Neg x => pure x
      | _ => pure (.Neg argEval)
  | e => pure e

/-- `getVariablesSet` from the source (insertion-ordered set of names). -/
def getVariablesSet : AlgExpr → List (List Char)
  | .Var name => [name]
  | .Neg arg => getVariablesSet arg
  | .Add arg1 arg2 => (getVariablesSet arg1 ++ getVariablesSet arg2).dedup
  | .Sub arg1 arg2 => (getVariablesSet arg1 ++ getVariablesSet arg2).dedup
  | .Mul arg1 arg2 => (getVariablesSet arg1 ++ getVariablesSet arg2).dedup
  | .Div arg1 arg2 => (getVariablesSet arg1 ++ getVariablesSet arg2).dedup
  | .Int _ => []

/-- `substituteVariables` from the source.  The source looks names up in a
`Map` built over the union of both variable sets; since every variable of
the expression is in that set, a total assignment models the lookup. -/
def substituteVariables (varMap : List Char → ℤ) : AlgExpr → AlgExpr
  | .Var name => .Int (varMap name)
  | .Neg arg => .Neg (substituteVariables varMap arg)
  | .Add arg1 arg2 => .Add (substituteVariables varMap arg1) (substituteVariables varMap arg2)
  | .Sub arg1 arg2 => .Sub (substituteVariables varMap arg1) (substituteVariables varMap arg2)
  | .Mul arg1 arg2 => .Mul (substituteVariables varMap arg1) (substituteVariables varMap arg2)
  | .Div arg1 arg2 => .Div (substituteVariables varMap arg1) (substituteVariables varMap arg2)
  | .Int v => .Int v

/-- `getComputedValue` from the source: float folding, `none` for `NaN`
(zero denominator or leftover variable; `NaN` propagates). -/
def getComputedValue : AlgExpr → Option ℚ
  | .Int v => some (v : ℚ)
  | .Var _ => none
  | .Neg arg => (getComputedValue arg).map (fun x => -x)
  | .Add arg1 arg2 =>
      match getComputedValue arg1, getComputedValue arg2 with
      | some a, some b => some (a + b)
      | _, _ => none
  | .Sub arg1 arg2 =>
      match getComputedValue arg1, getComputedValue arg2 with
      | some a, some b => some (a - b)
      | _, _ => none
  | .Mul arg1 arg2 =>
      match getComputedValue arg1, getComputedValue arg2 with
      | some a, some b => some (a * b)
      | _, _ => none
  | .Div arg1 arg2 =>
      match getComputedValue arg2 with
      | some d => if d = 0 then none else
          match getComputedValue arg1 with
          | some a => some (a / d)
          | none => none
      | none => none

/-- `areExpressionsEquivalent` from the source.  The ten `Math.random`
draws per variable are made explicit: `rand i` is the assignment used by
trial `i`.  A trial passes when either side folds to `NaN` (skipped) or the
two values differ by at most `0.0001`; the loop's early `return false` is
equivalent to the conjunction over all ten trials. -/
def areExpressionsEquivalent (rand : ℕ → List Char → ℤ) (expr1 expr2 : AlgExpr) : Bool :=
  (List.range 10).all fun i =>
    match getComputedValue (evaluateExpression (substituteVariables (rand i) expr1)),
          getComputedValue (evaluateExpression (substituteVariables (rand i) expr2)) with
    | some v1, some v2 => decide (|v1 - v2| ≤ 1 / 10000)
    | _, _ => true

/-! ## Structural predicates on expressions -/

/-- `true` iff the tree contains no `Neg (Neg _)` node. -/
def noNegNeg : AlgExpr → Bool
  | .Add a b => noNegNeg a && noNegNeg b
  | .Sub a b => noNegNeg a && noNegNeg b
  | .Mul a b => noNegNeg a && noNegNeg b
  | .Div a b => noNegNeg a && noNegNeg b
  | .Neg (.Neg _) => false
  | .Neg a => noNegNeg a
  | _ => true

/-- `true` iff every `Int` leaf of the tree has a non-negative value
(the representation invariant of the data model). -/
def intLeavesNonneg : AlgExpr → Bool
  | .Int v => decide (0 ≤ v)
  | .Var _ => true
  | .Add a b => intLeavesNonneg a && intLeavesNonneg b
  | .Sub a b => intLeavesNonneg a && intLeavesNonneg b
  | .Mul a b => intLeavesNonneg a && intLeavesNonneg b
  | .Div a b => intLeavesNonneg a && intLeavesNonneg b
  | .Neg a => intLeavesNonneg a

/-- `true` iff every `Var` leaf holds a nonempty run of ASCII letters —
exactly the names the tokenizer can produce. -/
def varsWf : AlgExpr → Bool
  | .Var s => !s.isEmpty && s.all isLetterChar
  | .Int _ => true
  | .Add a b => varsWf a && varsWf b
  | .Sub a b => varsWf a && varsWf b
  | .Mul a b => varsWf a && varsWf b
  | .Div a b => varsWf a && varsWf b
  | .Neg a => varsWf a

/-- The spec's "standardized form", word for word: no `Neg (Neg _)`, no
negative `Int`, and every numeric subtree is `Int n` with `n ≥ 0` or
`Neg (Int n)` with `n > 0`. -/
def specStandardized : AlgExpr → Bool
  | .Int v => decide (0 ≤ v)
  | .Var _ => true
  | .Neg (.Int v) => decide (0 < v)
  | .Neg (.Neg _) => false
  | .Neg a => specStandardized a
  | .Add a b => specStandardized a && specStandardized b
  | .Sub a b => specStandardized a && specStandardized b
  | .Mul a b => specStandardized a && specStandardized b
  | .Div a b => specStandardized a && specStandardized b

/-- The token list produced by tokenizing `renderExpression e` (for trees
whose `Int` leaves are non-negative and whose `Var` names are well formed). -/
def toksR : AlgExpr → List Token
  | .Int v => [.number v.toNat]
  | .Var s => [.var s]
  | .Add a b => .lparen :: (toksR a ++ .op '+' :: toksR b ++ [.rparen])
  | .Sub a b => .lparen :: (toksR a ++ .op '-' :: toksR b ++ [.rparen])
  | .Mul a b => .lparen :: (toksR a ++ .op '*' :: toksR b ++ [.rparen])
  | .Div a b => .lparen :: (toksR a ++ .op '/' :: toksR b ++ [.rparen])
  | .Neg a => .lparen :: .op '-' :: (toksR a ++ [.rparen])

/-- The three nonterminals of the spec's grammar. -/
inductive NT where
  | primary
  | mulDiv
  | addSub
deriving DecidableEq

/-- Modelled from the spec's grammar block (the parser's reference
language), annotated with the tree each derivation produces:

    AddSub  := MulDiv (('+' | '-') MulDiv)*
    MulDiv  := Primary (('*' | '/') Primary)*
    Primary := '-' Primary | NUMBER | VAR | '(' AddSub ')'

with left-folded trees at the two binary levels. -/
inductive Deriv : NT → AlgExpr → List Token → Prop where
  | num (n : ℕ) : Deriv .primary (.Int (Int.ofNat n)) [.number n]
  | var (s : List Char) : Deriv .primary (.Var s) [.var s]
  | neg {e w} : Deriv .primary e w → Deriv .primary (.Neg e) (.op '-' :: w)
  | paren {e w} : Deriv .addSub e w → Deriv .primary e (.lparen :: w ++ [.rparen])
  | mulOne {e w} : Deriv .primary e w → Deriv .mulDiv e w
  | mulMul {e w u wu} : Deriv .mulDiv e w → Deriv .primary u wu →
      Deriv .mulDiv (.Mul e u) (w ++ .op '*' :: wu)
  | mulDivStep {e w u wu} : Deriv .mulDiv e w → Deriv .primary u wu →
      Deriv .mulDiv (.Div e u) (w ++ .op '/' :: wu)
  | addOne {e w} : Deriv .mulDiv e w → Deriv .addSub e w
  | addAdd {e w u wu} : Deriv .addSub e w → Deriv .mulDiv u wu →
      Deriv .addSub (.Add e u) (w ++ .op '+' :: wu)
  | addSubStep {e w u wu} : Deriv .addSub e w → Deriv .mulDiv u wu →
      Deriv .addSub (.Sub e u) (w ++ .op '-' :: wu)

/-- The right-nested view of `(('*' | '/') Primary)*`: from an accumulated
left tree `acc`, consuming `ext` produces the final tree. Matches the shape
of the `parseMulDiv` loop. -/
inductive MulExt : AlgExpr → AlgExpr → List Token → Prop where
  | nil {acc} : MulExt acc acc []
  | mul {acc e u wu ext} : Deriv .primary u wu → MulExt (.Mul acc u) e ext →
      MulExt acc e (.op '*' :: wu ++ ext)
  | div {acc e u wu ext} : Deriv .primary u wu → MulExt (.Div acc u) e ext →
      MulExt acc e (.op '/' :: wu ++ ext)

/-- The right-nested view of `(('+' | '-') MulDiv)*`, matching the
`parseAddSub` loop. -/
inductive AddExt : AlgExpr → AlgExpr → List Token → Prop where
  | nil {acc} : AddExt acc acc []
  | add {acc e u wu ext} : Deriv .mulDiv u wu → AddExt (.Add acc u) e ext →
      AddExt acc e (.op '+' :: wu ++ ext)
  | sub {acc e u wu ext} : Deriv .mulDiv u wu → AddExt (.Sub acc u) e ext →
      AddExt acc e (.op '-' :: wu ++ ext)

/-- Whether a token list starts with any operator token (the continuation
condition of the `parseAddSub` loop is a special case of this). -/
def headIsOp : List Token → Bool
  | .op _ :: _ => true
  | _ => false

/-- Whether a token list starts with `*` or `/` (the continuation
condition of the `parseMulDiv` loop). -/
def headIsMulOp : List Token → Bool
  | .op c :: _ => c = '*' || c = '/'
  | _ => false

/-! ## Evaluator lemmas -/

theorem isNumber_iff (e : AlgExpr) :
    isNumber e = true ↔ (∃ n, e = .Int n) ∨ ∃ n, e = .Neg (.Int n) := by
  cases e with
  | Neg a => cases a <;> simp [isNumber]
  | _ => simp [isNumber]

theorem getValueChecked_of_isNumber (e : AlgExpr) (h : isNumber e = true) :
    getValueChecked e = some (getValue e) := by
  rcases (isNumber_iff e).mp h with ⟨n, rfl⟩ | ⟨n, rfl⟩ <;> rfl

theorem evaluateExpression_int (v : ℤ) : evaluateExpression (.Int v) = .Int v := rfl

theorem evaluateExpression_var (s : List Char) : evaluateExpression (.Var s) = .Var s := rfl

theorem evaluateExpression_neg (a : AlgExpr) :
    evaluateExpression (.Neg a) =
      match evaluateExpression a with
      | .Neg x => x
      | argEval => .Neg argEval := rfl

theorem evaluateExpression_standardizeNumber (n : ℤ) :
    evaluateExpression (standardizeNumber n) = standardizeNumber n := by
  unfold standardizeNumber
  split <;> rfl

theorem noNegNeg_standardizeNumber (n : ℤ) : noNegNeg (standardizeNumber n) = true := by
  unfold standardizeNumber
  split <;> rfl

theorem intLeavesNonneg_standardizeNumber (n : ℤ) :
    intLeavesNonneg (standardizeNumber n) = true := by
  unfold standardizeNumber
  split <;> simp [intLeavesNonneg] <;> omega

theorem isNumber_standardizeNumber (n : ℤ) : isNumber (standardizeNumber n) = true := by
  unfold standardizeNumber
  split <;> rfl

/-- The evaluator's output never contains a double negation, for every
input tree (well formed or not). -/
theorem noNegNeg_evaluateExpression (e : AlgExpr) :
    noNegNeg (evaluateExpression e) = true := by
  induction e with
  | Int v => rfl
  | Var s => rfl
  | Add a b iha ihb =>
      simp only [evaluateExpression]
      split
      · exact noNegNeg_standardizeNumber _
      · simp [noNegNeg, iha, ihb]
  | Sub a b iha ihb =>
      simp only [evaluateExpression]
      split
      · exact noNegNeg_standardizeNumber _
      · simp [noNegNeg, iha, ihb]
  | Mul a b iha ihb =>
      simp only [evaluateExpression]
      split
      · exact noNegNeg_standardizeNumber _
      · simp [noNegNeg, iha, ihb]
  | Div a b iha ihb =>
      simp only [evaluateExpression]
      split
      · exact noNegNeg_standardizeNumber _
      · simp [noNegNeg, iha, ihb]
  | Neg a iha =>
      simp only [evaluateExpression]
      cases h : evaluateExpression a with
      | Neg x =>
          rw [h] at iha
          cases x <;> simp_all [noNegNeg]
      | _ =>
          rw [h] at iha
          simp_all [noNegNeg]

/-- Evaluating an already-evaluated tree changes nothing. -/
theorem evaluateExpression_idem (e : AlgExpr) :
    evaluateExpression (evaluateExpression e) = evaluateExpression e := by
  induction e with
  | Int v => rfl
  | Var s => rfl
  | Add a b iha ihb =>
      simp only [evaluateExpression]
      split
      · exact evaluateExpression_standardizeNumber _
      · simp only [evaluateExpression, iha, ihb]
        simp_all
  | Sub a b iha ihb =>
      simp only [evaluateExpression]
      split
      · exact evaluateExpression_standardizeNumber _
      · simp only [evaluateExpression, iha, ihb]
        simp_all
  | Mul a b iha ihb =>
      simp only [evaluateExpression]
      split
      · exact evaluateExpression_standardizeNumber _
      · simp only [evaluateExpression, iha, ihb]
        simp_all
  | Div a b iha ihb =>
      simp only [evaluateExpression]
      split
      · exact evaluateExpression_standardizeNumber _
      · simp only [evaluateExpression, iha, ihb]
        simp_all
  | Neg a iha =>
      have hnn := noNegNeg_evaluateExpression a
      cases h : evaluateExpression a with
      | Neg x =>
          rw [h] at iha hnn
          simp only [evaluateExpression_neg, h]
          cases hx' : evaluateExpression x with
          | Neg y =>
              have hnx := noNegNeg_evaluateExpression x
              rw [hx'] at hnx
              simp only [evaluateExpression_neg, hx'] at iha
              subst iha
              simp [noNegNeg] at hnx
          | _ =>
              simp only [evaluateExpression_neg, hx'] at iha
              exact AlgExpr.Neg.inj iha
      | _ =>
          rw [h] at iha
          simp only [evaluateExpression_neg, h, iha]

/-- For inputs whose `Int` leaves are non-negative, evaluation keeps every
`Int` leaf non-negative. -/
theorem intLeavesNonneg_evaluateExpression (e : AlgExpr) (h : intLeavesNonneg e = true) :
    intLeavesNonneg (evaluateExpression e) = true := by
  induction e with
  | Int v => exact h
  | Var s => exact h
  | Add a b iha ihb =>
      simp only [intLeavesNonneg, Bool.and_eq_true] at h
      simp only [evaluateExpression]
      split
      · exact intLeavesNonneg_standardizeNumber _
      · simp [intLeavesNonneg, iha h.1, ihb h.2]
  | Sub a b iha ihb =>
      simp only [intLeavesNonneg, Bool.and_eq_true] at h
      simp only [evaluateExpression]
      split
      · exact intLeavesNonneg_standardizeNumber _
      · simp [intLeavesNonneg, iha h.1, ihb h.2]
  | Mul a b iha ihb =>
      simp only [intLeavesNonneg, Bool.and_eq_true] at h
      simp only [evaluateExpression]
      split
      · exact intLeavesNonneg_standardizeNumber _
      · simp [intLeavesNonneg, iha h.1, ihb h.2]
  | Div a b iha ihb =>
      simp only [intLeavesNonneg, Bool.and_eq_true] at h
      simp only [evaluateExpression]
      split
      · exact intLeavesNonneg_standardizeNumber _
      · simp [intLeavesNonneg, iha h.1, ihb h.2]
  | Neg a iha =>
      simp only [intLeavesNonneg] at h
      have iha' := iha h
      cases hx : evaluateExpression a with
      | Neg x =>
          rw [hx] at iha'
          simp only [evaluateExpression_neg, hx]
          simp_all [intLeavesNonneg]
      | _ =>
          rw [hx] at iha'
          simp only [evaluateExpression_neg, hx]
          simp_all [intLeavesNonneg]

/-- The checked evaluator (which propagates `getValue`'s
`EvaluationError` as `none`) never fails and agrees with the total
evaluator: the defensive error branch is unreachable. -/
theorem evaluateExpressionChecked_eq (e : AlgExpr) :
    evaluateExpressionChecked e = some (evaluateExpression e) := by
  induction e with
  | Int v => rfl
  | Var s => rfl
  | Add a b iha ihb =>
      simp only [evaluateExpressionChecked, evaluateExpression, iha, ihb, Option.some_bind]
      cases hl : isNumber (evaluateExpression a) with
      | false => simp [hl]
      | true =>
        cases hr : isNumber (evaluateExpression b) with
        | false => simp [hl, hr]
        | true =>
            simp [hl, hr, getValueChecked_of_isNumber _ hl, getValueChecked_of_isNumber _ hr]
  | Sub a b iha ihb =>
      simp only [evaluateExpressionChecked, evaluateExpression, iha, ihb, Option.some_bind]
      cases hl : isNumber (evaluateExpression a) with
      | false => simp [hl]
      | true =>
        cases hr : isNumber (evaluateExpression b) with
        | false => simp [hl, hr]
        | true =>
            simp [hl, hr, getValueChecked_of_isNumber _ hl, getValueChecked_of_isNumber _ hr]
  | Mul a b iha ihb =>
      simp only [evaluateExpressionChecked, evaluateExpression, iha, ihb, Option.some_bind]
      cases hl : isNumber (evaluateExpression a) with
      | false => simp [hl]
      | true =>
        cases hr : isNumber (evaluateExpression b) with
        | false => simp [hl, hr]
        | true =>
            simp [hl, hr, getValueChecked_of_isNumber _ hl, getValueChecked_of_isNumber _ hr]
  | Div a b iha ihb =>
      simp only [evaluateExpressionChecked, evaluateExpression, iha, ihb, Option.some_bind]
      cases hl : isNumber (evaluateExpression a) with
      | false => simp [hl]
      | true =>
        cases hr : isNumber (evaluateExpression b) with
        | false => simp [hl, hr]
        | true =>
            have gl := getValueChecked_of_isNumber _ hl
            have gr := getValueChecked_of_isNumber _ hr
            simp [hl, hr, gl, gr]
            split <;> simp_all
  | Neg a iha =>
      simp only [evaluateExpressionChecked, evaluateExpression_neg, iha, Option.some_bind]
      cases hx : evaluateExpression a <;> rfl

/-! ## Tokenizer lemmas -/

theorem length_dropWhile_le (p : Char → Bool) (l : List Char) :
    (List.dropWhile p l).length ≤ l.length := by
  induction l with
  | nil => simp
  | cons a l ih =>
      rw [List.dropWhile_cons]
      split
      · exact le_trans ih (Nat.le_succ _)
      · exact le_refl _

theorem isDigitChar_not_space {c : Char} (h : isDigitChar c = true) : isSpaceChar c = false := by
  simp only [isDigitChar, decide_eq_true_eq] at h
  simp only [isSpaceChar, decide_eq_false_iff_not]
  omega

theorem isLetterChar_not_space {c : Char} (h : isLetterChar c = true) : isSpaceChar c = false := by
  simp only [isLetterChar, decide_eq_true_eq] at h
  simp only [isSpaceChar, decide_eq_false_iff_not]
  omega

theorem isLetterChar_not_digit {c : Char} (h : isLetterChar c = true) : isDigitChar c = false := by
  simp only [isLetterChar, decide_eq_true_eq] at h
  simp only [isDigitChar, decide_eq_false_iff_not]
  omega

/-- Fuel irrelevance: any fuel beyond the remaining input length gives the
same tokenization (each loop iteration consumes at least one character). -/
theorem tokenizeF_irrel : ∀ (f1 : ℕ) (cs : List Char) (f2 : ℕ),
    cs.length < f1 → cs.length < f2 → tokenizeF f1 cs = tokenizeF f2 cs := by
  intro f1
  induction f1 with
  | zero => intro cs f2 h1 _; omega
  | succ g ih =>
      intro cs f2 h1 h2
      cases cs with
      | nil => cases f2 <;> rfl
      | cons c cs' =>
          cases f2 with
          | zero => simp at h2
          | succ g2 =>
              have hlen : cs'.length < g := by simp at h1; omega
              have hlen2 : cs'.length < g2 := by simp at h2; omega
              simp only [tokenizeF]
              split_ifs with hs hd hl ho hlp hrp
              · exact ih cs' g2 hlen hlen2
              · have hx : (List.dropWhile isDigitChar (c :: cs')).length ≤ cs'.length := by
                  rw [List.dropWhile_cons, if_pos hd]
                  exact length_dropWhile_le _ _
                rw [ih _ g2 (by omega) (by omega)]
              · have hx : (List.dropWhile isLetterChar (c :: cs')).length ≤ cs'.length := by
                  rw [List.dropWhile_cons, if_pos hl]
                  exact length_dropWhile_le _ _
                rw [ih _ g2 (by omega) (by omega)]
              · rw [ih cs' g2 hlen hlen2]
              · rw [ih cs' g2 hlen hlen2]
              · rw [ih cs' g2 hlen hlen2]
              · rfl

theorem tokenize_cons_space {c : Char} {cs : List Char} (h : isSpaceChar c = true) :
    tokenize (c :: cs) = tokenize cs := by
  show tokenizeF (cs.length + 1 + 1) (c :: cs) = _
  simp only [tokenizeF, h, if_true]
  rfl

theorem tokenize_cons_op {c : Char} {cs : List Char} (h1 : isSpaceChar c = false)
    (h2 : isDigitChar c = false) (h3 : isLetterChar c = false) (h4 : isOpChar c = true) :
    tokenize (c :: cs) = (tokenize cs).map (fun ts => .op c :: ts) := by
  show tokenizeF (cs.length + 1 + 1) (c :: cs) = _
  simp only [tokenizeF, h1, h2, h3, h4, Bool.false_eq_true, if_false, if_true]
  rfl

theorem tokenize_cons_lparen {cs : List Char} :
    tokenize ('(' :: cs) = (tokenize cs).map (fun ts => .lparen :: ts) := by
  show tokenizeF (cs.length + 1 + 1) ('(' :: cs) = _
  simp only [tokenizeF, show isSpaceChar '(' = false from by decide,
    show isDigitChar '(' = false from by decide, show isLetterChar '(' = false from by decide,
    show isOpChar '(' = false from by decide, Bool.false_eq_true, if_false, if_true]
  rfl

theorem tokenize_cons_rparen {cs : List Char} :
    tokenize (')' :: cs) = (tokenize cs).map (fun ts => .rparen :: ts) := by
  show tokenizeF (cs.length + 1 + 1) (')' :: cs) = _
  simp only [tokenizeF, show isSpaceChar ')' = false from by decide,
    show isDigitChar ')' = false from by decide, show isLetterChar ')' = false from by decide,
    show isOpChar ')' = false from by decide, Bool.false_eq_true, if_false, if_true]
  rfl

theorem takeWhile_append_all {p : Char → Bool} : ∀ (ds rest : List Char),
    (∀ c ∈ ds, p c = true) → (∀ c, rest.head? = some c → p c = false) →
    List.takeWhile p (ds ++ rest) = ds ∧ List.dropWhile p (ds ++ rest) = rest := by
  intro ds
  induction ds with
  | nil =>
      intro rest _ h2
      cases rest with
      | nil => exact ⟨rfl, rfl⟩
      | cons r rs =>
          have hr : p r = false := h2 r rfl
          constructor
          · rw [List.nil_append, List.takeWhile_cons, if_neg (by simp [hr])]
          · rw [List.nil_append, List.dropWhile_cons, if_neg (by simp [hr])]
  | cons d ds' ih =>
      intro rest h1 h2
      have hd : p d = true := h1 d (by simp)
      have hih := ih rest (fun c hc => h1 c (by simp [hc])) h2
      constructor
      · rw [List.cons_append, List.takeWhile_cons, if_pos hd, hih.1]
      · rw [List.cons_append, List.dropWhile_cons, if_pos hd, hih.2]

/-- Tokenizing a maximal digit run followed by a non-digit boundary. -/
theorem tokenize_digits (ds rest : List Char) (hne : ds ≠ [])
    (hds : ∀ c ∈ ds, isDigitChar c = true)
    (hrest : ∀ c, rest.head? = some c → isDigitChar c = false) :
    tokenize (ds ++ rest) =
      (tokenize rest).map (fun ts => .number (natFromDigits ds) :: ts) := by
  obtain ⟨d, ds', rfl⟩ : ∃ d ds', ds = d :: ds' := by
    cases ds with
    | nil => exact absurd rfl hne
    | cons d ds' => exact ⟨d, ds', rfl⟩
  have hd : isDigitChar d = true := hds d (by simp)
  have hsplit := takeWhile_append_all (d :: ds') rest hds hrest
  rw [List.cons_append] at hsplit
  show tokenizeF ((ds' ++ rest).length + 1 + 1) (d :: (ds' ++ rest)) = _
  simp only [tokenizeF, isDigitChar_not_space hd, hd, Bool.false_eq_true, if_false, if_true]
  rw [hsplit.1, hsplit.2]
  rw [tokenizeF_irrel ((ds' ++ rest).length + 1) rest (rest.length + 1)
    (by simp [List.length_append]; omega) (by omega)]
  rfl

/-- Tokenizing a maximal letter run followed by a non-letter boundary. -/
theorem tokenize_letters (ds rest : List Char) (hne : ds ≠ [])
    (hds : ∀ c ∈ ds, isLetterChar c = true)
    (hrest : ∀ c, rest.head? = some c → isLetterChar c = false) :
    tokenize (ds ++ rest) = (tokenize rest).map (fun ts => .var ds :: ts) := by
  obtain ⟨d, ds', rfl⟩ : ∃ d ds', ds = d :: ds' := by
    cases ds with
    | nil => exact absurd rfl hne
    | cons d ds' => exact ⟨d, ds', rfl⟩
  have hd : isLetterChar d = true := hds d (by simp)
  have hsplit := takeWhile_append_all (d :: ds') rest hds hrest
  rw [List.cons_append] at hsplit
  show tokenizeF ((ds' ++ rest).length + 1 + 1) (d :: (ds' ++ rest)) = _
  simp only [tokenizeF, isLetterChar_not_space hd, isLetterChar_not_digit hd, hd,
    Bool.false_eq_true, if_false, if_true]
  rw [hsplit.1, hsplit.2]
  rw [tokenizeF_irrel ((ds' ++ rest).length + 1) rest (rest.length + 1)
    (by simp [List.length_append]; omega) (by omega)]
  rfl

/-! ## Decimal rendering round-trips through the tokenizer -/

theorem toNat_digit_char {d : ℕ} (h : d < 10) : (Char.ofNat (48 + d)).toNat = 48 + d := by
  interval_cases d <;> decide

theorem isDigitChar_digit_char {d : ℕ} (h : d < 10) :
    isDigitChar (Char.ofNat (48 + d)) = true := by
  interval_cases d <;> decide

theorem natToDigitsAux_digits : ∀ (f n : ℕ), ∀ c ∈ natToDigitsAux f n, isDigitChar c = true := by
  intro f
  induction f with
  | zero => intro n c hc; simp [natToDigitsAux] at hc
  | succ g ih =>
      intro n c hc
      simp only [natToDigitsAux] at hc
      split at hc
      · simp at hc
      · rcases List.mem_append.mp hc with h | h
        · exact ih _ _ h
        · simp only [List.mem_singleton] at h
          subst h
          exact isDigitChar_digit_char (Nat.mod_lt _ (by norm_num))

theorem renderNat_digits (n : ℕ) : ∀ c ∈ renderNat n, isDigitChar c = true := by
  unfold renderNat
  split
  · intro c hc
    simp only [List.mem_singleton] at hc
    subst hc
    decide
  · exact natToDigitsAux_digits _ _

theorem renderNat_ne_nil (n : ℕ) : renderNat n ≠ [] := by
  unfold renderNat
  split
  · simp
  · simp only [natToDigitsAux]
    rw [if_neg (by assumption)]
    simp

theorem foldl_natToDigitsAux : ∀ (f n : ℕ), n ≤ f → ∀ acc : ℕ,
    List.foldl (fun a c => 10 * a + (c.toNat - 48)) acc (natToDigitsAux f n) =
      acc * 10 ^ (natToDigitsAux f n).length + n := by
  intro f
  induction f with
  | zero =>
      intro n h acc
      interval_cases n
      simp [natToDigitsAux]
  | succ g ih =>
      intro n h acc
      by_cases h0 : n = 0
      · subst h0; simp [natToDigitsAux]
      · simp only [natToDigitsAux, if_neg h0]
        rw [List.foldl_append, ih (n / 10) (by omega) acc]
        simp only [List.foldl_cons, List.foldl_nil, List.length_append, List.length_cons,
          List.length_nil]
        rw [toNat_digit_char (Nat.mod_lt _ (by norm_num))]
        have hmod : 48 + n % 10 - 48 = n % 10 := by omega
        rw [hmod]
        have hpow : acc * 10 ^ ((natToDigitsAux g (n / 10)).length + (0 + 1)) =
            acc * 10 ^ (natToDigitsAux g (n / 10)).length * 10 := by ring
        rw [hpow]
        generalize acc * 10 ^ (natToDigitsAux g (n / 10)).length = A
        omega

theorem natFromDigits_renderNat (n : ℕ) : natFromDigits (renderNat n) = n := by
  unfold renderNat natFromDigits
  split
  · subst n
    decide
  · rw [foldl_natToDigitsAux (n + 1) n (Nat.le_succ n) 0]
    simp

/-! ## Tokenizing a rendered expression -/

theorem except_map_map {ε α β γ : Type} (x : Except ε α) (f : α → β) (g : β → γ) :
    (x.map f).map g = x.map (fun a => g (f a)) := by
  cases x <;> rfl

/-- Tokenizing `renderExpression e ++ rest` prepends `toksR e` to the
tokens of `rest`, provided the boundary does not glue (first character of
`rest` is neither a digit nor a letter). -/
theorem tokenize_render : ∀ e : AlgExpr, intLeavesNonneg e = true → varsWf e = true →
    ∀ rest : List Char,
    (∀ c, rest.head? = some c → isDigitChar c = false ∧ isLetterChar c = false) →
    tokenize (renderExpression e ++ rest) = (tokenize rest).map (fun ts => toksR e ++ ts) := by
  intro e
  induction e with
  | Int v =>
      intro h1 _ rest hrest
      simp only [intLeavesNonneg, decide_eq_true_eq] at h1
      simp only [renderExpression, renderInt, if_neg (by omega : ¬v < 0), toksR]
      rw [tokenize_digits (renderNat v.toNat) rest (renderNat_ne_nil _) (renderNat_digits _)
        (fun c hc => (hrest c hc).1)]
      rw [natFromDigits_renderNat]
      rfl
  | Var s =>
      intro _ h2 rest hrest
      simp only [varsWf, Bool.and_eq_true, Bool.not_eq_true', List.all_eq_true] at h2
      have hne : s ≠ [] := by
        intro hs
        subst hs
        simp [List.isEmpty] at h2
      simp only [renderExpression, toksR]
      rw [tokenize_letters s rest hne (fun c hc => h2.2 c hc) (fun c hc => (hrest c hc).2)]
      rfl
  | Add a b iha ihb =>
      intro h1 h2 rest hrest
      simp only [intLeavesNonneg, Bool.and_eq_true] at h1
      simp only [varsWf, Bool.and_eq_true] at h2
      simp only [renderExpression, toksR, List.cons_append, List.append_assoc, List.nil_append]
      rw [tokenize_cons_lparen,
        iha h1.1 h2.1 _ (by intro c hc; simp at hc; subst hc; exact ⟨by decide, by decide⟩),
        tokenize_cons_space (by decide),
        tokenize_cons_op (by decide) (by decide) (by decide) (by decide),
        tokenize_cons_space (by decide),
        ihb h1.2 h2.2 _ (by intro c hc; simp at hc; subst hc; exact ⟨by decide, by decide⟩),
        tokenize_cons_rparen]
      cases tokenize rest <;> simp [Except.map, List.append_assoc]
  | Sub a b iha ihb =>
      intro h1 h2 rest hrest
      simp only [intLeavesNonneg, Bool.and_eq_true] at h1
      simp only [varsWf, Bool.and_eq_true] at h2
      simp only [renderExpression, toksR, List.cons_append, List.append_assoc, List.nil_append]
      rw [tokenize_cons_lparen,
        iha h1.1 h2.1 _ (by intro c hc; simp at hc; subst hc; exact ⟨by decide, by decide⟩),
        tokenize_cons_space (by decide),
        tokenize_cons_op (by decide) (by decide) (by decide) (by decide),
        tokenize_cons_space (by decide),
        ihb h1.2 h2.2 _ (by intro c hc; simp at hc; subst hc; exact ⟨by decide, by decide⟩),
        tokenize_cons_rparen]
      cases tokenize rest <;> simp [Except.map, List.append_assoc]
  | Mul a b iha ihb =>
      intro h1 h2 rest hrest
      simp only [intLeavesNonneg, Bool.and_eq_true] at h1
      simp only [varsWf, Bool.and_eq_true] at h2
      simp only [renderExpression, toksR, List.cons_append, List.append_assoc, List.nil_append]
      rw [tokenize_cons_lparen,
        iha h1.1 h2.1 _ (by intro c hc; simp at hc; subst hc; exact ⟨by decide, by decide⟩),
        tokenize_cons_space (by decide),
        tokenize_cons_op (by decide) (by decide) (by decide) (by decide),
        tokenize_cons_space (by decide),
        ihb h1.2 h2.2 _ (by intro c hc; simp at hc; subst hc; exact ⟨by decide, by decide⟩),
        tokenize_cons_rparen]
      cases tokenize rest <;> simp [Except.map, List.append_assoc]
  | Div a b iha ihb =>
      intro h1 h2 rest hrest
      simp only [intLeavesNonneg, Bool.and_eq_true] at h1
      simp only [varsWf, Bool.and_eq_true] at h2
      simp only [renderExpression, toksR, List.cons_append, List.append_assoc, List.nil_append]
      rw [tokenize_cons_lparen,
        iha h1.1 h2.1 _ (by intro c hc; simp at hc; subst hc; exact ⟨by decide, by decide⟩),
        tokenize_cons_space (by decide),
        tokenize_cons_op (by decide) (by decide) (by decide) (by decide),
        tokenize_cons_space (by decide),
        ihb h1.2 h2.2 _ (by intro c hc; simp at hc; subst hc; exact ⟨by decide, by decide⟩),
        tokenize_cons_rparen]
      cases tokenize rest <;> simp [Except.map, List.append_assoc]
  | Neg a iha =>
      intro h1 h2 rest hrest
      simp only [intLeavesNonneg] at h1
      simp only [varsWf] at h2
      simp only [renderExpression, toksR, List.cons_append, List.append_assoc, List.nil_append]
      rw [tokenize_cons_lparen,
        tokenize_cons_op (by decide) (by decide) (by decide) (by decide),
        iha h1 h2 _ (by intro c hc; simp at hc; subst hc; exact ⟨by decide, by decide⟩),
        tokenize_cons_rparen]
      cases tokenize rest <;> simp [Except.map, List.append_assoc]

/-! ## Grammar derivation lemmas -/

theorem Deriv_ne_nil : ∀ {lv : NT} {e : AlgExpr} {w : List Token}, Deriv lv e w → w ≠ [] := by
  intro lv e w h
  induction h with
  | num n => simp
  | var s => simp
  | neg _ _ => simp
  | paren _ _ => simp
  | mulOne _ ih => exact ih
  | mulMul _ _ _ _ => simp
  | mulDivStep _ _ _ _ => simp
  | addOne _ ih => exact ih
  | addAdd _ _ _ _ => simp
  | addSubStep _ _ _ _ => simp

theorem MulExt_deriv {acc e : AlgExpr} {ext : List Token} (h : MulExt acc e ext) :
    ∀ w0, Deriv .mulDiv acc w0 → Deriv .mulDiv e (w0 ++ ext) := by
  induction h with
  | nil => intro w0 h0; simpa using h0
  | mul hu _ ih =>
      intro w0 h0
      have := ih _ (Deriv.mulMul h0 hu)
      simpa [List.append_assoc] using this
  | div hu _ ih =>
      intro w0 h0
      have := ih _ (Deriv.mulDivStep h0 hu)
      simpa [List.append_assoc] using this

theorem AddExt_deriv {acc e : AlgExpr} {ext : List Token} (h : AddExt acc e ext) :
    ∀ w0, Deriv .addSub acc w0 → Deriv .addSub e (w0 ++ ext) := by
  induction h with
  | nil => intro w0 h0; simpa using h0
  | add hu _ ih =>
      intro w0 h0
      have := ih _ (Deriv.addAdd h0 hu)
      simpa [List.append_assoc] using this
  | sub hu _ ih =>
      intro w0 h0
      have := ih _ (Deriv.addSubStep h0 hu)
      simpa [List.append_assoc] using this

theorem MulExt_snoc_mul {acc e u : AlgExpr} {ext wu : List Token}
    (h : MulExt acc e ext) (hu : Deriv .primary u wu) :
    MulExt acc (.Mul e u) (ext ++ .op '*' :: wu) := by
  induction h with
  | nil => simpa using MulExt.mul hu MulExt.nil
  | mul hu' _ ih => simpa [List.append_assoc] using MulExt.mul hu' ih
  | div hu' _ ih => simpa [List.append_assoc] using MulExt.div hu' ih

theorem MulExt_snoc_div {acc e u : AlgExpr} {ext wu : List Token}
    (h : MulExt acc e ext) (hu : Deriv .primary u wu) :
    MulExt acc (.Div e u) (ext ++ .op '/' :: wu) := by
  induction h with
  | nil => simpa using MulExt.div hu MulExt.nil
  | mul hu' _ ih => simpa [List.append_assoc] using MulExt.mul hu' ih
  | div hu' _ ih => simpa [List.append_assoc] using MulExt.div hu' ih

theorem AddExt_snoc_add {acc e u : AlgExpr} {ext wu : List Token}
    (h : AddExt acc e ext) (hu : Deriv .mulDiv u wu) :
    AddExt acc (.Add e u) (ext ++ .op '+' :: wu) := by
  induction h with
  | nil => simpa using AddExt.add hu AddExt.nil
  | add hu' _ ih => simpa [List.append_assoc] using AddExt.add hu' ih
  | sub hu' _ ih => simpa [List.append_assoc] using AddExt.sub hu' ih

theorem AddExt_snoc_sub {acc e u : AlgExpr} {ext wu : List Token}
    (h : AddExt acc e ext) (hu : Deriv .mulDiv u wu) :
    AddExt acc (.Sub e u) (ext ++ .op '-' :: wu) := by
  induction h with
  | nil => simpa using AddExt.sub hu AddExt.nil
  | add hu' _ ih => simpa [List.append_assoc] using AddExt.add hu' ih
  | sub hu' _ ih => simpa [List.append_assoc] using AddExt.sub hu' ih

theorem Deriv_decomp_aux : ∀ {lv : NT} {e : AlgExpr} {w : List Token}, Deriv lv e w →
    (lv = .mulDiv → ∃ u w0 ext, w = w0 ++ ext ∧ Deriv .primary u w0 ∧ MulExt u e ext) ∧
    (lv = .addSub → ∃ u w0 ext, w = w0 ++ ext ∧ Deriv .mulDiv u w0 ∧ AddExt u e ext) := by
  intro lv e w h
  induction h with
  | num n => exact ⟨fun hl => by simp at hl, fun hl => by simp at hl⟩
  | var s => exact ⟨fun hl => by simp at hl, fun hl => by simp at hl⟩
  | neg _ _ => exact ⟨fun hl => by simp at hl, fun hl => by simp at hl⟩
  | paren _ _ => exact ⟨fun hl => by simp at hl, fun hl => by simp at hl⟩
  | mulOne h' _ =>
      exact ⟨fun _ => ⟨_, _, [], by simp, h', MulExt.nil⟩, fun hl => by simp at hl⟩
  | mulMul h1 h2 ih1 _ =>
      refine ⟨fun _ => ?_, fun hl => by simp at hl⟩
      obtain ⟨u0, w0, ext, rfl, hp, hext⟩ := ih1.1 rfl
      exact ⟨u0, w0, ext ++ .op '*' :: _, by simp [List.append_assoc], hp,
        MulExt_snoc_mul hext h2⟩
  | mulDivStep h1 h2 ih1 _ =>
      refine ⟨fun _ => ?_, fun hl => by simp at hl⟩
      obtain ⟨u0, w0, ext, rfl, hp, hext⟩ := ih1.1 rfl
      exact ⟨u0, w0, ext ++ .op '/' :: _, by simp [List.append_assoc], hp,
        MulExt_snoc_div hext h2⟩
  | addOne h' _ =>
      exact ⟨fun hl => by simp at hl, fun _ => ⟨_, _, [], by simp, h', AddExt.nil⟩⟩
  | addAdd h1 h2 ih1 _ =>
      refine ⟨fun hl => by simp at hl, fun _ => ?_⟩
      obtain ⟨u0, w0, ext, rfl, hp, hext⟩ := ih1.2 rfl
      exact ⟨u0, w0, ext ++ .op '+' :: _, by simp [List.append_assoc], hp,
        AddExt_snoc_add hext h2⟩
  | addSubStep h1 h2 ih1 _ =>
      refine ⟨fun hl => by simp at hl, fun _ => ?_⟩
      obtain ⟨u0, w0, ext, rfl, hp, hext⟩ := ih1.2 rfl
      exact ⟨u0, w0, ext ++ .op '-' :: _, by simp [List.append_assoc], hp,
        AddExt_snoc_sub hext h2⟩

theorem Deriv_mulDiv_decomp {e : AlgExpr} {w : List Token} (h : Deriv .mulDiv e w) :
    ∃ u w0 ext, w = w0 ++ ext ∧ Deriv .primary u w0 ∧ MulExt u e ext :=
  (Deriv_decomp_aux h).1 rfl

theorem Deriv_addSub_decomp {e : AlgExpr} {w : List Token} (h : Deriv .addSub e w) :
    ∃ u w0 ext, w = w0 ++ ext ∧ Deriv .mulDiv u w0 ∧ AddExt u e ext :=
  (Deriv_decomp_aux h).2 rfl

/-! ## Parser soundness: a successful parse is a grammar derivation -/

theorem parse_soundF : ∀ f : ℕ,
    (∀ ts e r, parsePrimaryF f ts = .ok (e, r) → ∃ w, ts = w ++ r ∧ Deriv .primary e w) ∧
    (∀ ts e r, parseMulDivF f ts = .ok (e, r) → ∃ w, ts = w ++ r ∧ Deriv .mulDiv e w) ∧
    (∀ acc ts e r, parseMulDivLoopF f acc ts = .ok (e, r) →
      ∃ ext, ts = ext ++ r ∧ MulExt acc e ext) ∧
    (∀ ts e r, parseAddSubF f ts = .ok (e, r) → ∃ w, ts = w ++ r ∧ Deriv .addSub e w) ∧
    (∀ acc ts e r, parseAddSubLoopF f acc ts = .ok (e, r) →
      ∃ ext, ts = ext ++ r ∧ AddExt acc e ext) := by
  intro f
  induction f with
  | zero =>
      refine ⟨?_, ?_, ?_, ?_, ?_⟩ <;> intros <;>
        simp_all [parsePrimaryF, parseMulDivF, parseMulDivLoopF, parseAddSubF,
          parseAddSubLoopF]
  | succ g ih =>
      obtain ⟨ihP, ihM, ihML, ihA, ihAL⟩ := ih
      have SP : ∀ ts e r, parsePrimaryF (g + 1) ts = .ok (e, r) →
          ∃ w, ts = w ++ r ∧ Deriv .primary e w := by
        intro ts e r h
        cases ts with
        | nil => simp [parsePrimaryF] at h
        | cons t rest =>
            cases t with
            | op c =>
                simp only [parsePrimaryF] at h
                by_cases hc : c = '-'
                · subst hc
                  rw [if_pos rfl] at h
                  cases hp : parsePrimaryF g rest with
                  | error m => rw [hp] at h; simp at h
                  | ok pr =>
                      obtain ⟨e', rest'⟩ := pr
                      rw [hp] at h
                      simp only [Except.ok.injEq, Prod.mk.injEq] at h
                      obtain ⟨rfl, rfl⟩ := h
                      obtain ⟨w', rfl, hd⟩ := ihP rest e' rest' hp
                      exact ⟨.op '-' :: w', rfl, Deriv.neg hd⟩
                · rw [if_neg hc] at h
                  simp at h
            | number n =>
                simp only [parsePrimaryF, Except.ok.injEq, Prod.mk.injEq] at h
                obtain ⟨rfl, rfl⟩ := h
                exact ⟨[.number n], rfl, Deriv.num n⟩
            | var s =>
                simp only [parsePrimaryF, Except.ok.injEq, Prod.mk.injEq] at h
                obtain ⟨rfl, rfl⟩ := h
                exact ⟨[.var s], rfl, Deriv.var s⟩
            | lparen =>
                simp only [parsePrimaryF] at h
                cases ha : parseAddSubF g rest with
                | error m => rw [ha] at h; simp at h
                | ok pr =>
                    obtain ⟨e', rest'⟩ := pr
                    rw [ha] at h
                    cases rest' with
                    | nil => simp at h
                    | cons rt rest'' =>
                        cases rt with
                        | rparen =>
                            simp only [Except.ok.injEq, Prod.mk.injEq] at h
                            obtain ⟨rfl, rfl⟩ := h
                            obtain ⟨w', hw, hd⟩ := ihA rest e' (.rparen :: rest'') ha
                            refine ⟨.lparen :: (w' ++ [.rparen]), ?_, ?_⟩
                            · simp [hw, List.append_assoc]
                            · have := Deriv.paren hd
                              simpa [List.append_assoc] using this
                        | op c => simp at h
                        | number n => simp at h
                        | var s => simp at h
                        | lparen => simp at h
            | rparen => simp [parsePrimaryF] at h
      have SML : ∀ acc ts e r, parseMulDivLoopF (g + 1) acc ts = .ok (e, r) →
          ∃ ext, ts = ext ++ r ∧ MulExt acc e ext := by
        intro acc ts e r h
        cases ts with
        | nil =>
            simp only [parseMulDivLoopF, Except.ok.injEq, Prod.mk.injEq] at h
            obtain ⟨rfl, rfl⟩ := h
            exact ⟨[], rfl, MulExt.nil⟩
        | cons t rest =>
            cases t with
            | op c =>
                simp only [parseMulDivLoopF] at h
                by_cases hc : c = '*'
                · subst hc
                  rw [if_pos rfl] at h
                  cases hp : parsePrimaryF g rest with
                  | error m => rw [hp] at h; simp at h
                  | ok pr =>
                      obtain ⟨right, rest'⟩ := pr
                      rw [hp] at h
                      obtain ⟨wu, rfl, hdu⟩ := ihP rest right rest' hp
                      obtain ⟨ext', rfl, hext⟩ := ihML (.Mul acc right) rest' e r h
                      exact ⟨.op '*' :: (wu ++ ext'), by simp [List.append_assoc],
                        MulExt.mul hdu hext⟩
                · rw [if_neg hc] at h
                  by_cases hc2 : c = '/'
                  · subst hc2
                    rw [if_pos rfl] at h
                    cases hp : parsePrimaryF g rest with
                    | error m => rw [hp] at h; simp at h
                    | ok pr =>
                        obtain ⟨right, rest'⟩ := pr
                        rw [hp] at h
                        obtain ⟨wu, rfl, hdu⟩ := ihP rest right rest' hp
                        obtain ⟨ext', rfl, hext⟩ := ihML (.Div acc right) rest' e r h
                        exact ⟨.op '/' :: (wu ++ ext'), by simp [List.append_assoc],
                          MulExt.div hdu hext⟩
                  · rw [if_neg hc2] at h
                    simp only [Except.ok.injEq, Prod.mk.injEq] at h
                    obtain ⟨rfl, rfl⟩ := h
                    exact ⟨[], rfl, MulExt.nil⟩
            | number n =>
                simp only [parseMulDivLoopF, Except.ok.injEq, Prod.mk.injEq] at h
                obtain ⟨rfl, rfl⟩ := h
                exact ⟨[], rfl, MulExt.nil⟩
            | var s =>
                simp only [parseMulDivLoopF, Except.ok.injEq, Prod.mk.injEq] at h
                obtain ⟨rfl, rfl⟩ := h
                exact ⟨[], rfl, MulExt.nil⟩
            | lparen =>
                simp only [parseMulDivLoopF, Except.ok.injEq, Prod.mk.injEq] at h
                obtain ⟨rfl, rfl⟩ := h
                exact ⟨[], rfl, MulExt.nil⟩
            | rparen =>
                simp only [parseMulDivLoopF, Except.ok.injEq, Prod.mk.injEq] at h
                obtain ⟨rfl, rfl⟩ := h
                exact ⟨[], rfl, MulExt.nil⟩
      have SM : ∀ ts e r, parseMulDivF (g + 1) ts = .ok (e, r) →
          ∃ w, ts = w ++ r ∧ Deriv .mulDiv e w := by
        intro ts e r h
        simp only [parseMulDivF] at h
        cases hp : parsePrimaryF g ts with
        | error m => rw [hp] at h; simp at h
        | ok pr =>
            obtain ⟨left, rest⟩ := pr
            rw [hp] at h
            obtain ⟨w0, rfl, hd0⟩ := ihP ts left rest hp
            obtain ⟨ext, rfl, hext⟩ := ihML left rest e r h
            exact ⟨w0 ++ ext, by simp [List.append_assoc],
              MulExt_deriv hext w0 (Deriv.mulOne hd0)⟩
      have SAL : ∀ acc ts e r, parseAddSubLoopF (g + 1) acc ts = .ok (e, r) →
          ∃ ext, ts = ext ++ r ∧ AddExt acc e ext := by
        intro acc ts e r h
        cases ts with
        | nil =>
            simp only [parseAddSubLoopF, Except.ok.injEq, Prod.mk.injEq] at h
            obtain ⟨rfl, rfl⟩ := h
            exact ⟨[], rfl, AddExt.nil⟩
        | cons t rest =>
            cases t with
            | op c =>
                simp only [parseAddSubLoopF] at h
                by_cases hc : c = '+'
                · subst hc
                  rw [if_pos rfl] at h
                  cases hp : parseMulDivF g rest with
                  | error m => rw [hp] at h; simp at h
                  | ok pr =>
                      obtain ⟨right, rest'⟩ := pr
                      rw [hp] at h
                      obtain ⟨wu, rfl, hdu⟩ := ihM rest right rest' hp
                      obtain ⟨ext', rfl, hext⟩ := ihAL (.Add acc right) rest' e r h
                      exact ⟨.op '+' :: (wu ++ ext'), by simp [List.append_assoc],
                        AddExt.add hdu hext⟩
                · rw [if_neg hc] at h
                  by_cases hc2 : c = '-'
                  · subst hc2
                    rw [if_pos rfl] at h
                    cases hp : parseMulDivF g rest with
                    | error m => rw [hp] at h; simp at h
                    | ok pr =>
                        obtain ⟨right, rest'⟩ := pr
                        rw [hp] at h
                        obtain ⟨wu, rfl, hdu⟩ := ihM rest right rest' hp
                        obtain ⟨ext', rfl, hext⟩ := ihAL (.Sub acc right) rest' e r h
                        exact ⟨.op '-' :: (wu ++ ext'), by simp [List.append_assoc],
                          AddExt.sub hdu hext⟩
                  · rw [if_neg hc2] at h
                    simp only [Except.ok.injEq, Prod.mk.injEq] at h
                    obtain ⟨rfl, rfl⟩ := h
                    exact ⟨[], rfl, AddExt.nil⟩
            | number n =>
                simp only [parseAddSubLoopF, Except.ok.injEq, Prod.mk.injEq] at h
                obtain ⟨rfl, rfl⟩ := h
                exact ⟨[], rfl, AddExt.nil⟩
            | var s =>
                simp only [parseAddSubLoopF, Except.ok.injEq, Prod.mk.injEq] at h
                obtain ⟨rfl, rfl⟩ := h
                exact ⟨[], rfl, AddExt.nil⟩
            | lparen =>
                simp only [parseAddSubLoopF, Except.ok.injEq, Prod.mk.injEq] at h
                obtain ⟨rfl, rfl⟩ := h
                exact ⟨[], rfl, AddExt.nil⟩
            | rparen =>
                simp only [parseAddSubLoopF, Except.ok.injEq, Prod.mk.injEq] at h
                obtain ⟨rfl, rfl⟩ := h
                exact ⟨[], rfl, AddExt.nil⟩
      have SA : ∀ ts e r, parseAddSubF (g + 1) ts = .ok (e, r) →
          ∃ w, ts = w ++ r ∧ Deriv .addSub e w := by
        intro ts e r h
        simp only [parseAddSubF] at h
        cases hp : parseMulDivF g ts with
        | error m => rw [hp] at h; simp at h
        | ok pr =>
            obtain ⟨left, rest⟩ := pr
            rw [hp] at h
            obtain ⟨w0, rfl, hd0⟩ := ihM ts left rest hp
            obtain ⟨ext, rfl, hext⟩ := ihAL left rest e r h
            exact ⟨w0 ++ ext, by simp [List.append_assoc],
              AddExt_deriv hext w0 (Deriv.addOne hd0)⟩
      exact ⟨SP, SM, SML, SA, SAL⟩

/-! ## Parser completeness: every grammar derivation parses back -/

theorem mulDivLoop_nil (acc : AlgExpr) (f : ℕ) (rest : List Token)
    (hrest : headIsMulOp rest = false) (hf : 1 ≤ f) :
    parseMulDivLoopF f acc rest = .ok (acc, rest) := by
  obtain ⟨f', rfl⟩ : ∃ f', f = f' + 1 := ⟨f - 1, by omega⟩
  cases rest with
  | nil => rfl
  | cons t rest' =>
      cases t with
      | op c =>
          simp only [headIsMulOp, Bool.or_eq_false_iff, decide_eq_false_iff_not] at hrest
          simp only [parseMulDivLoopF]
          rw [if_neg hrest.1, if_neg hrest.2]
      | number n => rfl
      | var s => rfl
      | lparen => rfl
      | rparen => rfl

theorem addSubLoop_nil (acc : AlgExpr) (f : ℕ) (rest : List Token)
    (hrest : headIsOp rest = false) (hf : 1 ≤ f) :
    parseAddSubLoopF f acc rest = .ok (acc, rest) := by
  obtain ⟨f', rfl⟩ : ∃ f', f = f' + 1 := ⟨f - 1, by omega⟩
  cases rest with
  | nil => rfl
  | cons t rest' =>
      cases t with
      | op c => simp [headIsOp] at hrest
      | number n => rfl
      | var s => rfl
      | lparen => rfl
      | rparen => rfl

theorem parse_completeF : ∀ n : ℕ,
    (∀ (e : AlgExpr) (w : List Token), w.length ≤ n → Deriv .primary e w →
      ∀ f rest, 5 * w.length + 1 ≤ f → parsePrimaryF f (w ++ rest) = .ok (e, rest)) ∧
    (∀ (acc e : AlgExpr) (ext : List Token), ext.length ≤ n → MulExt acc e ext →
      ∀ f rest, headIsMulOp rest = false → 5 * ext.length + 2 ≤ f →
        parseMulDivLoopF f acc (ext ++ rest) = .ok (e, rest)) ∧
    (∀ (e : AlgExpr) (w : List Token), w.length ≤ n → Deriv .mulDiv e w →
      ∀ f rest, headIsMulOp rest = false → 5 * w.length + 2 ≤ f →
        parseMulDivF f (w ++ rest) = .ok (e, rest)) ∧
    (∀ (acc e : AlgExpr) (ext : List Token), ext.length ≤ n → AddExt acc e ext →
      ∀ f rest, headIsOp rest = false → 5 * ext.length + 3 ≤ f →
        parseAddSubLoopF f acc (ext ++ rest) = .ok (e, rest)) ∧
    (∀ (e : AlgExpr) (w : List Token), w.length ≤ n → Deriv .addSub e w →
      ∀ f rest, headIsOp rest = false → 5 * w.length + 3 ≤ f →
        parseAddSubF f (w ++ rest) = .ok (e, rest)) := by
  intro n
  induction n with
  | zero =>
      refine ⟨?_, ?_, ?_, ?_, ?_⟩
      · intro e w hw hd f rest _
        exact absurd (List.length_eq_zero.mp (by omega)) (Deriv_ne_nil hd)
      · intro acc e ext hext hder f rest hrest hf
        have : ext = [] := List.length_eq_zero.mp (by omega)
        subst this
        cases hder
        exact mulDivLoop_nil acc f rest hrest (by omega)
      · intro e w hw hd f rest _ _
        exact absurd (List.length_eq_zero.mp (by omega)) (Deriv_ne_nil hd)
      · intro acc e ext hext hder f rest hrest hf
        have : ext = [] := List.length_eq_zero.mp (by omega)
        subst this
        cases hder
        exact addSubLoop_nil acc f rest hrest (by omega)
      · intro e w hw hd f rest _ _
        exact absurd (List.length_eq_zero.mp (by omega)) (Deriv_ne_nil hd)
  | succ m ih =>
      obtain ⟨ihP, ihML, ihM, ihAL, ihA⟩ := ih
      have Pp : ∀ (e : AlgExpr) (w : List Token), w.length ≤ m + 1 → Deriv .primary e w →
          ∀ f rest, 5 * w.length + 1 ≤ f → parsePrimaryF f (w ++ rest) = .ok (e, rest) := by
        intro e w hw hd f rest hf
        cases hd with
        | num k =>
            obtain ⟨f', rfl⟩ : ∃ f', f = f' + 1 := ⟨f - 1, by simp at hf; omega⟩
            rfl
        | var s =>
            obtain ⟨f', rfl⟩ : ∃ f', f = f' + 1 := ⟨f - 1, by simp at hf; omega⟩
            rfl
        | neg hd' =>
            rename_i e' w'
            simp only [List.length_cons] at hw hf
            obtain ⟨f', rfl⟩ : ∃ f', f = f' + 1 := ⟨f - 1, by omega⟩
            simp only [List.cons_append, parsePrimaryF, List.append_eq, if_true, if_pos rfl]
            rw [ihP e' w' (by omega) hd' f' rest (by omega)]
        | paren hd' =>
            rename_i w'
            simp only [List.length_cons, List.length_append, List.length_singleton, List.length_nil] at hw hf
            obtain ⟨f', rfl⟩ : ∃ f', f = f' + 1 := ⟨f - 1, by omega⟩
            simp only [List.cons_append, List.append_assoc, List.singleton_append, List.nil_append, parsePrimaryF, List.append_eq]
            rw [ihA e w' (by omega) hd' f' (.rparen :: rest) rfl (by omega)]
      have PML : ∀ (acc e : AlgExpr) (ext : List Token), ext.length ≤ m + 1 →
          MulExt acc e ext → ∀ f rest, headIsMulOp rest = false → 5 * ext.length + 2 ≤ f →
          parseMulDivLoopF f acc (ext ++ rest) = .ok (e, rest) := by
        intro acc e ext hlen hext f rest hrest hf
        cases hext with
        | nil => exact mulDivLoop_nil acc f rest hrest (by omega)
        | mul hu hext' =>
            rename_i u wu ext'
            simp only [List.length_cons, List.length_append] at hlen hf
            obtain ⟨f', rfl⟩ : ∃ f', f = f' + 1 := ⟨f - 1, by omega⟩
            simp only [List.cons_append, List.append_assoc, parseMulDivLoopF, List.append_eq, if_true, if_pos rfl]
            rw [ihP u wu (by omega) hu f' (ext' ++ rest) (by omega)]
            exact ihML (.Mul acc u) e ext' (by omega) hext' f' rest hrest (by omega)
        | div hu hext' =>
            rename_i u wu ext'
            simp only [List.length_cons, List.length_append] at hlen hf
            obtain ⟨f', rfl⟩ : ∃ f', f = f' + 1 := ⟨f - 1, by omega⟩
            simp only [List.cons_append, List.append_assoc, parseMulDivLoopF, List.append_eq]
            rw [if_neg (show ¬(('/' : Char) = '*') from by decide)]
            simp only [if_true]
            rw [ihP u wu (by omega) hu f' (ext' ++ rest) (by omega)]
            exact ihML (.Div acc u) e ext' (by omega) hext' f' rest hrest (by omega)
      have Pm : ∀ (e : AlgExpr) (w : List Token), w.length ≤ m + 1 → Deriv .mulDiv e w →
          ∀ f rest, headIsMulOp rest = false → 5 * w.length + 2 ≤ f →
          parseMulDivF f (w ++ rest) = .ok (e, rest) := by
        intro e w hw hd f rest hrest hf
        obtain ⟨u, w0, ext, rfl, hp, hext⟩ := Deriv_mulDiv_decomp hd
        have hw0 : 1 ≤ w0.length := by
          have := Deriv_ne_nil hp
          cases w0 with
          | nil => exact absurd rfl this
          | cons a b => simp
        simp only [List.length_append] at hw hf
        obtain ⟨f', rfl⟩ : ∃ f', f = f' + 1 := ⟨f - 1, by omega⟩
        simp only [parseMulDivF, List.append_assoc, List.append_eq]
        rw [Pp u w0 (by omega) hp f' (ext ++ rest) (by omega)]
        exact PML u e ext (by omega) hext f' rest hrest (by omega)
      have PAL : ∀ (acc e : AlgExpr) (ext : List Token), ext.length ≤ m + 1 →
          AddExt acc e ext → ∀ f rest, headIsOp rest = false → 5 * ext.length + 3 ≤ f →
          parseAddSubLoopF f acc (ext ++ rest) = .ok (e, rest) := by
        intro acc e ext hlen hext f rest hrest hf
        cases hext with
        | nil => exact addSubLoop_nil acc f rest hrest (by omega)
        | add hu hext' =>
            rename_i u wu ext'
            simp only [List.length_cons, List.length_append] at hlen hf
            obtain ⟨f', rfl⟩ : ∃ f', f = f' + 1 := ⟨f - 1, by omega⟩
            simp only [List.cons_append, List.append_assoc, parseAddSubLoopF, List.append_eq, if_true, if_pos rfl]
            have hrest' : headIsMulOp (ext' ++ rest) = false := by
              cases hext' with
              | nil => simp only [List.nil_append]
                       cases rest with
                       | nil => rfl
                       | cons t r =>
                           cases t with
                           | op c => simp [headIsOp] at hrest
                           | number n => rfl
                           | var s => rfl
                           | lparen => rfl
                           | rparen => rfl
              | add _ _ => rfl
              | sub _ _ => rfl
            rw [ihM u wu (by omega) hu f' (ext' ++ rest) hrest' (by omega)]
            exact ihAL (.Add acc u) e ext' (by omega) hext' f' rest hrest (by omega)
        | sub hu hext' =>
            rename_i u wu ext'
            simp only [List.length_cons, List.length_append] at hlen hf
            obtain ⟨f', rfl⟩ : ∃ f', f = f' + 1 := ⟨f - 1, by omega⟩
            simp only [List.cons_append, List.append_assoc, parseAddSubLoopF, List.append_eq]
            rw [if_neg (show ¬(('-' : Char) = '+') from by decide)]
            simp only [if_true]
            have hrest' : headIsMulOp (ext' ++ rest) = false := by
              cases hext' with
              | nil => simp only [List.nil_append]
                       cases rest with
                       | nil => rfl
                       | cons t r =>
                           cases t with
                           | op c => simp [headIsOp] at hrest
                           | number n => rfl
                           | var s => rfl
                           | lparen => rfl
                           | rparen => rfl
              | add _ _ => rfl
              | sub _ _ => rfl
            rw [ihM u wu (by omega) hu f' (ext' ++ rest) hrest' (by omega)]
            exact ihAL (.Sub acc u) e ext' (by omega) hext' f' rest hrest (by omega)
      have Pa : ∀ (e : AlgExpr) (w : List Token), w.length ≤ m + 1 → Deriv .addSub e w →
          ∀ f rest, headIsOp rest = false → 5 * w.length + 3 ≤ f →
          parseAddSubF f (w ++ rest) = .ok (e, rest) := by
        intro e w hw hd f rest hrest hf
        obtain ⟨u, w0, ext, rfl, hp, hext⟩ := Deriv_addSub_decomp hd
        have hw0 : 1 ≤ w0.length := by
          have := Deriv_ne_nil hp
          cases w0 with
          | nil => exact absurd rfl this
          | cons a b => simp
        simp only [List.length_append] at hw hf
        obtain ⟨f', rfl⟩ : ∃ f', f = f' + 1 := ⟨f - 1, by omega⟩
        simp only [parseAddSubF, List.append_assoc, List.append_eq]
        have hrest' : headIsMulOp (ext ++ rest) = false := by
          cases hext with
          | nil => simp only [List.nil_append]
                   cases rest with
                   | nil => rfl
                   | cons t r =>
                       cases t with
                       | op c => simp [headIsOp] at hrest
                       | number n => rfl
                       | var s => rfl
                       | lparen => rfl
                       | rparen => rfl
          | add _ _ => rfl
          | sub _ _ => rfl
        rw [Pm u w0 (by omega) hp f' (ext ++ rest) hrest' (by omega)]
        exact PAL u e ext (by omega) hext f' rest hrest (by omega)
      exact ⟨Pp, PML, Pm, PAL, Pa⟩

/-! ## Round trip: parse after render -/

theorem toksR_deriv : ∀ e : AlgExpr, intLeavesNonneg e = true →
    Deriv .primary e (toksR e) := by
  intro e
  induction e with
  | Int v =>
      intro h
      simp only [intLeavesNonneg, decide_eq_true_eq] at h
      have hv : AlgExpr.Int v = .Int (Int.ofNat v.toNat) := by
        congr 1
        rw [Int.ofNat_eq_natCast, Int.toNat_of_nonneg h]
      rw [toksR, hv]
      exact Deriv.num v.toNat
  | Var s => intro _; exact Deriv.var s
  | Add a b iha ihb =>
      intro h
      simp only [intLeavesNonneg, Bool.and_eq_true] at h
      have da := Deriv.addOne (Deriv.mulOne (iha h.1))
      have db := Deriv.mulOne (ihb h.2)
      have := Deriv.paren (Deriv.addAdd da db)
      simpa [toksR, List.append_assoc] using this
  | Sub a b iha ihb =>
      intro h
      simp only [intLeavesNonneg, Bool.and_eq_true] at h
      have da := Deriv.addOne (Deriv.mulOne (iha h.1))
      have db := Deriv.mulOne (ihb h.2)
      have := Deriv.paren (Deriv.addSubStep da db)
      simpa [toksR, List.append_assoc] using this
  | Mul a b iha ihb =>
      intro h
      simp only [intLeavesNonneg, Bool.and_eq_true] at h
      have da := Deriv.mulOne (iha h.1)
      have := Deriv.paren (Deriv.addOne (Deriv.mulMul da (ihb h.2)))
      simpa [toksR, List.append_assoc] using this
  | Div a b iha ihb =>
      intro h
      simp only [intLeavesNonneg, Bool.and_eq_true] at h
      have da := Deriv.mulOne (iha h.1)
      have := Deriv.paren (Deriv.addOne (Deriv.mulDivStep da (ihb h.2)))
      simpa [toksR, List.append_assoc] using this
  | Neg a iha =>
      intro h
      simp only [intLeavesNonneg] at h
      have := Deriv.paren (Deriv.addOne (Deriv.mulOne (Deriv.neg (iha h))))
      simpa [toksR, List.append_assoc] using this

theorem parseTokens_complete {e : AlgExpr} {ts : List Token} (h : Deriv .addSub e ts) :
    parseTokens ts = .ok e := by
  have hc := (parse_completeF ts.length).2.2.2.2 e ts le_rfl h (5 * ts.length + 5) []
    rfl (by omega)
  rw [List.append_nil] at hc
  unfold parseTokens
  rw [hc]

theorem parseTokens_sound {ts : List Token} {e : AlgExpr} (h : parseTokens ts = .ok e) :
    Deriv .addSub e ts := by
  unfold parseTokens at h
  cases ha : parseAddSubF (5 * ts.length + 5) ts with
  | error m => rw [ha] at h; simp at h
  | ok pr =>
      obtain ⟨e', r⟩ := pr
      rw [ha] at h
      cases r with
      | nil =>
          simp only [Except.ok.injEq] at h
          subst h
          obtain ⟨w, hw, hd⟩ := (parse_soundF _).2.2.2.1 ts e' [] ha
          rw [List.append_nil] at hw
          rwa [hw]
      | cons t r' => simp at h

theorem renderExpression_tokenize (e : AlgExpr) (h1 : intLeavesNonneg e = true)
    (h2 : varsWf e = true) : tokenize (renderExpression e) = .ok (toksR e) := by
  have := tokenize_render e h1 h2 [] (by intro c hc; simp at hc)
  rw [List.append_nil] at this
  rw [this]
  simp [tokenize, tokenizeF, Except.map]

/-- Fully parenthesized rendering re-parses to the same tree. -/
theorem parseExpression_render (e : AlgExpr) (h1 : intLeavesNonneg e = true)
    (h2 : varsWf e = true) : parseExpression (renderExpression e) = .ok e := by
  unfold parseExpression
  rw [renderExpression_tokenize e h1 h2]
  exact parseTokens_complete (Deriv.addOne (Deriv.mulOne (toksR_deriv e h1)))

/-! ## Equivalence checker on `x / 0` -/

theorem eval_div_int_zero (k : ℤ) :
    evaluateExpression (.Div (.Int k) (.Int 0)) = .Div (.Int k) (.Int 0) := by
  simp [evaluateExpression, isNumber, getValue]

theorem getComputedValue_div_zero (k : ℤ) :
    getComputedValue (.Div (.Int k) (.Int 0)) = none := by
  simp [getComputedValue]

/-- Every trial of `areEquivalent(x / 0, 1)` folds the left side to `NaN`
and is skipped, so the overall loop answers `true` whatever the draws. -/
theorem areEquiv_x0_one (rand : ℕ → List Char → ℤ) :
    areExpressionsEquivalent rand (.Div (.Var ['x']) (.Int 0)) (.Int 1) = true := by
  unfold areExpressionsEquivalent
  rw [List.all_eq_true]
  intro i _
  have hs : substituteVariables (rand i) (.Div (.Var ['x']) (.Int 0)) =
      .Div (.Int (rand i ['x'])) (.Int 0) := rfl
  rw [hs, eval_div_int_zero, getComputedValue_div_zero]

/-! ## Parse success coincides with the grammar -/

theorem parseExpression_ok_iff (cs : List Char) :
    (∃ e, parseExpression cs = .ok e) ↔
      ∃ ts, tokenize cs = .ok ts ∧ ∃ e, Deriv .addSub e ts := by
  unfold parseExpression
  cases ht : tokenize cs with
  | error m =>
      constructor
      · rintro ⟨e, he⟩
        simp [Except.bind] at he
      · rintro ⟨ts, hts, _⟩
        simp at hts
  | ok ts =>
      constructor
      · rintro ⟨e, he⟩
        simp only [Except.bind] at he
        exact ⟨ts, rfl, e, parseTokens_sound he⟩
      · rintro ⟨ts', hts, e, hd⟩
        obtain rfl : ts = ts' := by
          simpa using hts
        exact ⟨e, parseTokens_complete hd⟩

/-! ## Claim theorems -/

/-- C1 (counterexample): the claim "the output of `evaluate` is always in
standardized form, with every numeric subtree `Int n` (n ≥ 0) or
`Neg (Int n)` (n > 0)" is false as stated: `evaluate (Neg (Int 0))` returns
`Neg (Int 0)` (the `Neg` branch never standardizes), and an input holding a
negative `Int` leaf such as `Int (-1)` passes through unchanged. -/
theorem C1_counterexample :
    (evaluateExpression (.Neg (.Int 0)) = .Neg (.Int 0) ∧
      specStandardized (.Neg (.Int 0)) = false) ∧
    (evaluateExpression (.Int (-1)) = .Int (-1) ∧
      specStandardized (.Int (-1)) = false) := by
  refine ⟨⟨rfl, rfl⟩, rfl, rfl⟩

/-- C1 (amended): for every expression `e`, `evaluate e` contains no
`Neg (Neg _)`; and when every `Int` leaf of `e` is non-negative, the output
also contains no negative `Int` — hence every numeric subtree of the output
is `Int n` with n ≥ 0 or `Neg (Int n)` with n ≥ 0. -/
theorem C1_standardized (e : AlgExpr) :
    noNegNeg (evaluateExpression e) = true ∧
    (intLeavesNonneg e = true → intLeavesNonneg (evaluateExpression e) = true) :=
  ⟨noNegNeg_evaluateExpression e, fun h => intLeavesNonneg_evaluateExpression e h⟩

/-- C1 witness: the amended claim at the concrete input `-(5 - 9)`. -/
theorem C1_standardized_witness :
    noNegNeg (evaluateExpression (.Neg (.Sub (.Int 5) (.Int 9)))) = true ∧
    intLeavesNonneg (evaluateExpression (.Neg (.Sub (.Int 5) (.Int 9)))) = true :=
  ⟨(C1_standardized (.Neg (.Sub (.Int 5) (.Int 9)))).1,
    (C1_standardized (.Neg (.Sub (.Int 5) (.Int 9)))).2 (by decide)⟩

/-- C2: `evaluate (parse "4 + x + 1")` is `Add (Add (Int 4) (Var x)) (Int 1)`:
the parse tree comes back unchanged — the evaluator performs no rebalancing
across the variable and in particular does not produce `Add (Int 5) (Var x)`. -/
theorem C2_no_rebalancing :
    parseExpression "4 + x + 1".toList =
      .ok (.Add (.Add (.Int 4) (.Var ['x'])) (.Int 1)) ∧
    evaluateExpression (.Add (.Add (.Int 4) (.Var ['x'])) (.Int 1)) =
      .Add (.Add (.Int 4) (.Var ['x'])) (.Int 1) ∧
    evaluateExpression (.Add (.Add (.Int 4) (.Var ['x'])) (.Int 1)) ≠
      .Add (.Int 5) (.Var ['x']) := by
  refine ⟨rfl, rfl, by decide⟩

/-- C3: the evaluator is idempotent — evaluating an evaluator output
changes nothing. -/
theorem C3_evaluate_idempotent (e : AlgExpr) :
    evaluateExpression (evaluateExpression e) = evaluateExpression e :=
  evaluateExpression_idem e

/-- C4: after evaluating both children, a `Div` node collapses to a
standardized integer exactly when both evaluated children are numeric, the
divisor is nonzero and divides the dividend exactly; otherwise the `Div`
is re-emitted over the evaluated children.  Concretely,
`evaluate (parse "4 / 2") = Int 2` and
`evaluate (parse "4 / 3") = Div (Int 4) (Int 3)`. -/
theorem C4_div_branch :
    (∀ a b : AlgExpr,
      evaluateExpression (.Div a b) =
        (if isNumber (evaluateExpression a) && isNumber (evaluateExpression b)
            && getValue (evaluateExpression b) != 0
            && getValue (evaluateExpression a) % getValue (evaluateExpression b) == 0 then
          standardizeNumber (getValue (evaluateExpression a) / getValue (evaluateExpression b))
        else .Div (evaluateExpression a) (evaluateExpression b)) ∧
      isNumber (evaluateExpression (.Div a b)) =
        (isNumber (evaluateExpression a) && isNumber (evaluateExpression b)
          && getValue (evaluateExpression b) != 0
          && getValue (evaluateExpression a) % getValue (evaluateExpression b) == 0)) ∧
    Except.map evaluateExpression (parseExpression "4 / 2".toList) = .ok (.Int 2) ∧
    Except.map evaluateExpression (parseExpression "4 / 3".toList) =
      .ok (.Div (.Int 4) (.Int 3)) := by
  refine ⟨fun a b => ⟨rfl, ?_⟩, rfl, rfl⟩
  by_cases hc : (isNumber (evaluateExpression a) && isNumber (evaluateExpression b)
      && getValue (evaluateExpression b) != 0
      && getValue (evaluateExpression a) % getValue (evaluateExpression b) == 0) = true
  · rw [hc]
    have : evaluateExpression (.Div a b) =
        standardizeNumber (getValue (evaluateExpression a) / getValue (evaluateExpression b)) := by
      show (if (isNumber (evaluateExpression a) && isNumber (evaluateExpression b)
          && getValue (evaluateExpression b) != 0
          && getValue (evaluateExpression a) % getValue (evaluateExpression b) == 0) = true then
          standardizeNumber (getValue (evaluateExpression a) / getValue (evaluateExpression b))
        else .Div (evaluateExpression a) (evaluateExpression b)) = _
      rw [if_pos hc]
    rw [this, isNumber_standardizeNumber]
  · rw [Bool.not_eq_true] at hc
    rw [hc]
    have : evaluateExpression (.Div a b) =
        .Div (evaluateExpression a) (evaluateExpression b) := by
      show (if (isNumber (evaluateExpression a) && isNumber (evaluateExpression b)
          && getValue (evaluateExpression b) != 0
          && getValue (evaluateExpression a) % getValue (evaluateExpression b) == 0) = true then
          standardizeNumber (getValue (evaluateExpression a) / getValue (evaluateExpression b))
        else .Div (evaluateExpression a) (evaluateExpression b)) = _
      rw [if_neg (by simp [hc])]
    rw [this]
    rfl

/-- C5 (counterexample): the claim fails without a well-formedness condition
on variable names: for `e = Var ""` the rendering is the empty string, whose
parse fails, so `evaluate (parse (render e))` is not `evaluate e` (which is
`Var ""`); the claim's only hypothesis (non-negative `Int` leaves) holds. -/
theorem C5_counterexample :
    intLeavesNonneg (.Var []) = true ∧
    Except.map evaluateExpression (parseExpression (renderExpression (.Var []))) =
      .error "Unexpected end of input" ∧
    Except.map evaluateExpression (parseExpression (renderExpression (.Var []))) ≠
      .ok (evaluateExpression (.Var [])) := by
  refine ⟨rfl, rfl, ?_⟩
  intro h
  rw [show Except.map evaluateExpression (parseExpression (renderExpression (.Var []))) =
    .error "Unexpected end of input" from rfl] at h
  exact Except.noConfusion h

/-- C5 (amended): for every expression whose `Int` leaves are non-negative
and whose `Var` names are nonempty ASCII-letter runs, evaluating the parse
of the rendering gives the same normal form as evaluating directly. -/
theorem C5_render_parse_evaluate (e : AlgExpr) (h1 : intLeavesNonneg e = true)
    (h2 : varsWf e = true) :
    Except.map evaluateExpression (parseExpression (renderExpression e)) =
      .ok (evaluateExpression e) := by
  rw [parseExpression_render e h1 h2]
  rfl

/-- C5 witness: the amended claim at the concrete input `(1 + x) * 2`. -/
theorem C5_render_parse_evaluate_witness :
    intLeavesNonneg (.Mul (.Add (.Int 1) (.Var ['x'])) (.Int 2)) = true ∧
    varsWf (.Mul (.Add (.Int 1) (.Var ['x'])) (.Int 2)) = true ∧
    Except.map evaluateExpression
      (parseExpression (renderExpression (.Mul (.Add (.Int 1) (.Var ['x'])) (.Int 2)))) =
      .ok (evaluateExpression (.Mul (.Add (.Int 1) (.Var ['x'])) (.Int 2))) :=
  ⟨by decide, by decide,
    C5_render_parse_evaluate (.Mul (.Add (.Int 1) (.Var ['x'])) (.Int 2))
      (by decide) (by decide)⟩

/-- C6: `areEquivalent (parse "x / 0") (parse "1")` is `true` for every
sequence of integer draws: each trial substitutes into `x / 0`, whose
folded value is undefined (`none`), so every trial is skipped and the
checker reports equivalence after the ten trials. -/
theorem C6_div_zero_equivalent :
    parseExpression "x / 0".toList = .ok (.Div (.Var ['x']) (.Int 0)) ∧
    parseExpression "1".toList = .ok (.Int 1) ∧
    (∀ env : List Char → ℤ,
      getComputedValue (evaluateExpression
        (substituteVariables env (.Div (.Var ['x']) (.Int 0)))) = none) ∧
    (∀ rand : ℕ → List Char → ℤ,
      areExpressionsEquivalent rand (.Div (.Var ['x']) (.Int 0)) (.Int 1) = true) := by
  refine ⟨rfl, rfl, fun env => ?_, areEquiv_x0_one⟩
  rw [show substituteVariables env (.Div (.Var ['x']) (.Int 0)) =
    .Div (.Int (env ['x'])) (.Int 0) from rfl, eval_div_int_zero, getComputedValue_div_zero]

/-- C7: binary operators of equal precedence parse left-associatively and
unary minus is parsed at the `Primary` level, binding tighter than `*`:
`1-2-3` is `Sub (Sub 1 2) 3`, `-2*3` is `Mul (Neg 2) 3`, and `--x` is
`Neg (Neg (Var x))`. -/
theorem C7_parser_shape :
    parseExpression "1-2-3".toList = .ok (.Sub (.Sub (.Int 1) (.Int 2)) (.Int 3)) ∧
    parseExpression "-2*3".toList = .ok (.Mul (.Neg (.Int 2)) (.Int 3)) ∧
    parseExpression "--x".toList = .ok (.Neg (.Neg (.Var ['x']))) :=
  ⟨rfl, rfl, rfl⟩

/-- C8: parsing succeeds exactly when the input tokenizes without an
unexpected character and the token sequence is derivable from the spec's
`AddSub` grammar — every failure is one of the listed `SyntaxError`
conditions (end of input while an operand is expected, missing closing
parenthesis, trailing tokens, unexpected character or token); in
particular `"1 + "` and `"(1 + 2"` fail. -/
theorem C8_parse_errors :
    (∀ cs : List Char, (∃ e, parseExpression cs = .ok e) ↔
      ∃ ts, tokenize cs = .ok ts ∧ ∃ e, Deriv .addSub e ts) ∧
    parseExpression "1 + ".toList = .error "Unexpected end of input" ∧
    parseExpression "(1 + 2".toList = .error "Expected closing parenthesis" :=
  ⟨parseExpression_ok_iff, rfl, rfl⟩

/-- C9: the `EvaluationError` branch of `getValue` is unreachable from the
evaluator: the checked evaluator, which propagates that error as `none`,
always returns `some` and agrees with the total evaluator. -/
theorem C9_evaluation_error_unreachable (e : AlgExpr) :
    evaluateExpressionChecked e = some (evaluateExpression e) :=
  evaluateExpressionChecked_eq e

/-- C10 (counterexample): `parse (render e) = e` fails without a condition
on variable names even when all `Int` leaves are non-negative: for
`e = Var "1"` the rendering `"1"` re-parses as the literal `Int 1`. -/
theorem C10_counterexample :
    intLeavesNonneg (.Var ['1']) = true ∧
    parseExpression (renderExpression (.Var ['1'])) = .ok (.Int 1) ∧
    AlgExpr.Int 1 ≠ .Var ['1'] := by
  refine ⟨rfl, rfl, by decide⟩

/-- C10 (amended): `parse` after `render` is the identity on every tree
whose `Int` leaves are non-negative and whose `Var` names are nonempty
ASCII-letter runs (render fully parenthesizes, so the tree re-parses
exactly). -/
theorem C10_parse_render_id (e : AlgExpr) (h1 : intLeavesNonneg e = true)
    (h2 : varsWf e = true) :
    parseExpression (renderExpression e) = .ok e :=
  parseExpression_render e h1 h2

/-- C10 witness: the amended claim at the concrete input `-(y / 3)`. -/
theorem C10_parse_render_id_witness :
    intLeavesNonneg (.Neg (.Div (.Var ['y']) (.Int 3))) = true ∧
    varsWf (.Neg (.Div (.Var ['y']) (.Int 3))) = true ∧
    parseExpression (renderExpression (.Neg (.Div (.Var ['y']) (.Int 3)))) =
      .ok (.Neg (.Div (.Var ['y']) (.Int 3))) :=
  ⟨by decide, by decide,
    C10_parse_render_id (.Neg (.Div (.Var ['y']) (.Int 3))) (by decide) (by decide)⟩
